import Mathlib

/-!
Verification of the `slice-string` crate: a UTF-8 string backed by a
caller-supplied byte slice (`SliceString<'a>(SliceVec<'a, u8>)` in
`src/lib.rs`, plus the `ufmt` adapter in `src/ufmt.rs`).

The backing region is modelled as `List Nat` (each element one `u8`);
`len` is the committed prefix length.  Panics (tinyvec capacity panics,
`assert!` failures, out-of-range slicing) are modelled as `Option.none`;
fallible results (`Result`) as `Except`.
-/

set_option linter.unusedVariables false

/-- Standard UTF-8 validating decoder over byte lists, mirroring
`core::str::from_utf8` / the `chars()` iterator: rejects overlong forms
(lead bytes `C0`/`C1`, `E0` with second byte `< A0`, `F0` with second byte
`< 90`), surrogates (`ED` with second byte `>= A0`) and values above
`U+10FFFF` (`F4` with second byte `>= 90`, lead bytes `>= F5`).  Returns the
decoded scalar values on success. -/
def utf8Decode : List Nat → Option (List Nat)
  | [] => some []
  | b :: t =>
    if b < 0x80 then
      (utf8Decode t).map (fun cs => b :: cs)
    else if b < 0xC2 then none
    else if b < 0xF5 then
      match t with
      | [] => none
      | b1 :: t1 =>
        if b < 0xE0 then
          if 0x80 ≤ b1 ∧ b1 < 0xC0 then
            (utf8Decode t1).map (fun cs => ((b - 0xC0) * 64 + (b1 - 0x80)) :: cs)
          else none
        else
          match t1 with
          | [] => none
          | b2 :: t2 =>
            if b < 0xF0 then
              if (0x80 ≤ b1 ∧ b1 < 0xC0) ∧ (0x80 ≤ b2 ∧ b2 < 0xC0)
                  ∧ (b = 0xE0 → 0xA0 ≤ b1) ∧ (b = 0xED → b1 < 0xA0) then
                (utf8Decode t2).map
                  (fun cs => ((b - 0xE0) * 4096 + (b1 - 0x80) * 64 + (b2 - 0x80)) :: cs)
              else none
            else
              match t2 with
              | [] => none
              | b3 :: t3 =>
                if (0x80 ≤ b1 ∧ b1 < 0xC0) ∧ (0x80 ≤ b2 ∧ b2 < 0xC0) ∧ (0x80 ≤ b3 ∧ b3 < 0xC0)
                    ∧ (b = 0xF0 → 0x90 ≤ b1) ∧ (b = 0xF4 → b1 < 0x90) then
                  (utf8Decode t3).map
                    (fun cs =>
                      ((b - 0xF0) * 262144 + (b1 - 0x80) * 4096 + (b2 - 0x80) * 64
                        + (b3 - 0x80)) :: cs)
                else none
    else none

/-- A byte list is valid UTF-8 iff the decoder succeeds. -/
def Utf8Valid (bs : List Nat) : Prop := (utf8Decode bs).isSome = true

instance (bs : List Nat) : Decidable (Utf8Valid bs) := by
  unfold Utf8Valid; infer_instance

/-- A Unicode scalar value (Rust `char`): below `U+110000` and not a
surrogate. -/
def ScalarValue (c : Nat) : Prop := c < 0x110000 ∧ ¬(0xD800 ≤ c ∧ c < 0xE000)

instance (c : Nat) : Decidable (ScalarValue c) := by
  unfold ScalarValue; infer_instance

/-- `char::len_utf8` from Rust core. -/
def utf8Width (c : Nat) : Nat :=
  if c < 0x80 then 1 else if c < 0x800 then 2 else if c < 0x10000 then 3 else 4

/-- `char::encode_utf8` from Rust core: the UTF-8 bytes of one scalar. -/
def utf8EncodeScalar (c : Nat) : List Nat :=
  if c < 0x80 then [c]
  else if c < 0x800 then [0xC0 + c / 64, 0x80 + c % 64]
  else if c < 0x10000 then [0xE0 + c / 4096, 0x80 + c / 64 % 64, 0x80 + c % 64]
  else [0xF0 + c / 262144, 0x80 + c / 4096 % 64, 0x80 + c / 64 % 64, 0x80 + c % 64]

/-- `SliceString<'a>` = `SliceVec<'a, u8>`: a backing byte region (`data`,
whose length is the capacity) plus the committed length `len`. -/
structure SliceString where
  data : List Nat
  len : Nat
deriving DecidableEq, Repr

namespace SliceString

/-- `SliceVec::capacity`: the backing slice length. -/
def capacity (s : SliceString) : Nat := s.data.length

/-- The committed content bytes `region[0..len]` (the bytes `as_str` views). -/
def content (s : SliceString) : List Nat := s.data.take s.len

/-- `SliceString::new`: bind an empty string to a region (`len = 0`). -/
def new (buf : List Nat) : SliceString := ⟨buf, 0⟩

/-- The crate's error type for checked construction (`str::Utf8Error`). -/
inductive Utf8Error where
  | invalidEncoding
deriving DecidableEq, Repr

/-- `core::fmt::Error`, returned by the `fmt::Write` impl. -/
inductive FmtError where
  | fmtError
deriving DecidableEq, Repr

/-- `SliceString::from_utf8(buf, len)`: slicing `buf[..len]` panics
(`none`) when `len > buf.len()`; otherwise the prefix is UTF-8 checked and
the string is built with `from_utf8_unchecked`. -/
def from_utf8 (buf : List Nat) (n : Nat) : Option (Except Utf8Error SliceString) :=
  if n ≤ buf.length then
    some (if (utf8Decode (buf.take n)).isSome then Except.ok ⟨buf, n⟩
          else Except.error Utf8Error.invalidEncoding)
  else none

/-- `SliceString::clear` via `SliceVec::clear`: set `len` to zero. -/
def clear (s : SliceString) : SliceString := { s with len := 0 }

/-- `str::is_char_boundary` on the content string: index `0` is always a
boundary, the end of the string is a boundary, and an interior index is a
boundary iff its byte is not a continuation byte. -/
def byteBoundary (bs : List Nat) (i : Nat) : Bool :=
  if i = 0 then true
  else
    match bs[i]? with
    | none => decide (i = bs.length)
    | some b => decide (b < 0x80) || decide (0xC0 ≤ b)

/-- `self.is_char_boundary(i)` where `self` derefs to the content `str`. -/
def is_char_boundary (s : SliceString) (i : Nat) : Bool := byteBoundary s.content i

/-- `SliceString::truncate`: when `new_len <= len` it asserts the character
boundary (panic modelled as `none`), then `SliceVec::truncate` reduces the
length (a no-op when `new_len >= len`). -/
def truncate (s : SliceString) (new_len : Nat) : Option SliceString :=
  if new_len ≤ s.len then
    if s.is_char_boundary new_len then some { s with len := new_len } else none
  else some s

/-- `SliceString::pop`: `chars().last()` (the last decoded scalar of the
content, `none` on empty) and, when present, `SliceVec::truncate` by its
encoded width.  On content that is not valid UTF-8 the source is undefined
behaviour (`as_str` uses `from_utf8_unchecked`); this model then returns the
string unchanged, a case unreachable while invariant I1 holds. -/
def pop (s : SliceString) : Option Nat × SliceString :=
  match (utf8Decode s.content).bind List.getLast? with
  | none => (none, s)
  | some c => (some c, { s with len := s.len - utf8Width c })

/-- `SliceVec::extend_from_slice`: empty input returns immediately;
otherwise it panics (`none`) when the new length exceeds the capacity, else
copies the bytes after the committed prefix and extends `len`. -/
def push_str (s : SliceString) (bs : List Nat) : Option SliceString :=
  if bs.isEmpty then some s
  else if s.len + bs.length ≤ s.capacity then
    some ⟨s.data.take s.len ++ bs ++ s.data.drop (s.len + bs.length), s.len + bs.length⟩
  else none

/-- `SliceString::push`: a one-byte `char` goes through `SliceVec::push`
(panics, `none`, when full); a multi-byte `char` is encoded and appended via
`push_str`. -/
def push (s : SliceString) (c : Nat) : Option SliceString :=
  if utf8Width c = 1 then
    if s.len < s.capacity then some ⟨s.data.set s.len c, s.len + 1⟩ else none
  else push_str s (utf8EncodeScalar c)

/-- `SliceString::split_off`: when `at <= len` the character boundary is
asserted (panic = `none`); `SliceVec::split_off` then panics when
`at > capacity` and otherwise splits the backing slice at `at`: the original
keeps `data[..at]` with length `min len at`, the new vec takes `data[at..]`
with length `len - at` (saturating). -/
def split_off (s : SliceString) (i : Nat) : Option (SliceString × SliceString) :=
  if i ≤ s.len ∧ ¬s.is_char_boundary i then none
  else if s.capacity < i then none
  else some (⟨s.data.take i, min s.len i⟩, ⟨s.data.drop i, s.len - i⟩)

/-- `fmt::Write::write_str` for `SliceString`: rejects with `fmt::Error`
when `capacity < len + s.len()`, leaving the string untouched, else appends
with `push_str` (which cannot panic once the guard passed). -/
def write_str (s : SliceString) (bs : List Nat) : Except FmtError Unit × SliceString :=
  if s.capacity < s.len + bs.length then (Except.error FmtError.fmtError, s)
  else
    match push_str s bs with
    | some s2 => (Except.ok (), s2)
    | none => (Except.error FmtError.fmtError, s)

/-- `fmt::Write::write_char` for `SliceString`: rejects with `fmt::Error`
when `capacity < len + c.len_utf8()`, else appends with `push`. -/
def write_char (s : SliceString) (c : Nat) : Except FmtError Unit × SliceString :=
  if s.capacity < s.len + utf8Width c then (Except.error FmtError.fmtError, s)
  else
    match push s c with
    | some s2 => (Except.ok (), s2)
    | none => (Except.error FmtError.fmtError, s)

/-- `ufmt_write::uWrite::write_str` for `SliceString` (`src/ufmt.rs`): the
same capacity guard and `push_str` call, but with `()` as the error type. -/
def uwrite_str (s : SliceString) (bs : List Nat) : Except Unit Unit × SliceString :=
  if s.capacity < s.len + bs.length then (Except.error (), s)
  else
    match push_str s bs with
    | some s2 => (Except.ok (), s2)
    | none => (Except.error (), s)

end SliceString

/-- Lexicographic comparison of byte (or scalar) lists: `Ord for str` in
Rust is exactly this comparison of the UTF-8 bytes, and the same function on
scalar lists is the standard lexicographic comparison of decoded text. -/
def listCompare : List Nat → List Nat → Ordering
  | [], [] => Ordering.eq
  | [], _ :: _ => Ordering.lt
  | _ :: _, [] => Ordering.gt
  | a :: as2, b :: bs2 =>
    if a < b then Ordering.lt else if b < a then Ordering.gt else listCompare as2 bs2

namespace SliceString

/-- `PartialEq for SliceString`: `str::eq(&**self, &**rhs)`, byte equality
of the two contents. -/
def beq (a b : SliceString) : Bool := decide (a.content = b.content)

/-- `PartialEq<str> for SliceString` (also the `&str` variant):
`str::eq(&self[..], other)`. -/
def beqStr (a : SliceString) (t : List Nat) : Bool := decide (a.content = t)

/-- `PartialEq<SliceString> for str` (also the `&str` variant):
`str::eq(self, &other[..])`. -/
def strBeq (t : List Nat) (a : SliceString) : Bool := decide (t = a.content)

/-- `Ord for SliceString` (and `PartialOrd::partial_cmp`, which wraps the
same `str` comparison in `some`): `str::cmp` of the two contents. -/
def cmp (a b : SliceString) : Ordering := listCompare a.content b.content

/-- `Hash for SliceString`: the hasher consumes the content string
(`<str as Hash>::hash(self, hasher)`); an arbitrary hasher is modelled as a
function of the hashed bytes. -/
def hashWith (h : List Nat → Nat) (a : SliceString) : Nat := h a.content

/-- The state invariant of `SliceString`: the committed length is within
capacity (I2) and the content bytes are valid UTF-8 (I1). -/
def Inv (s : SliceString) : Prop := s.len ≤ s.capacity ∧ Utf8Valid s.content

/-- One public mutating call on a `SliceString` that returns (panicking
calls take no step).  `split_off` steps to both the retained and the
returned string.  `char` arguments are Unicode scalar values and `&str`
arguments are valid UTF-8, as Rust's types guarantee. -/
inductive Step : SliceString → SliceString → Prop where
  | clear (s : SliceString) : Step s s.clear
  | truncate (s : SliceString) (n : Nat) (s2 : SliceString)
      (h : s.truncate n = some s2) : Step s s2
  | pop (s : SliceString) : Step s (s.pop).2
  | push (s : SliceString) (c : Nat) (s2 : SliceString) (hc : ScalarValue c)
      (h : s.push c = some s2) : Step s s2
  | pushStr (s : SliceString) (bs : List Nat) (s2 : SliceString) (hv : Utf8Valid bs)
      (h : s.push_str bs = some s2) : Step s s2
  | splitRetained (s : SliceString) (n : Nat) (r t : SliceString)
      (h : s.split_off n = some (r, t)) : Step s r
  | splitReturned (s : SliceString) (n : Nat) (r t : SliceString)
      (h : s.split_off n = some (r, t)) : Step s t
  | writeStr (s : SliceString) (bs : List Nat) (hv : Utf8Valid bs) :
      Step s (s.write_str bs).2
  | writeChar (s : SliceString) (c : Nat) (hc : ScalarValue c) :
      Step s (s.write_char c).2

end SliceString

/-! ### UTF-8 codec lemmas -/

theorem utf8Decode_cons1 (b : Nat) (t : List Nat) (h : b < 0x80) :
    utf8Decode (b :: t) = (utf8Decode t).map (fun cs => b :: cs) := by
  rw [utf8Decode.eq_def]
  dsimp only
  rw [if_pos h]

theorem utf8Decode_cons2 (b b1 : Nat) (t : List Nat) (hb : 0xC2 ≤ b ∧ b < 0xE0)
    (h1 : 0x80 ≤ b1 ∧ b1 < 0xC0) :
    utf8Decode (b :: b1 :: t) =
      (utf8Decode t).map (fun cs => ((b - 0xC0) * 64 + (b1 - 0x80)) :: cs) := by
  rw [utf8Decode.eq_def]
  dsimp only
  rw [if_neg (by omega), if_neg (by omega), if_pos (by omega), if_pos (by omega), if_pos h1]

theorem utf8Decode_cons3 (b b1 b2 : Nat) (t : List Nat) (hb : 0xE0 ≤ b ∧ b < 0xF0)
    (h : (0x80 ≤ b1 ∧ b1 < 0xC0) ∧ (0x80 ≤ b2 ∧ b2 < 0xC0)
        ∧ (b = 0xE0 → 0xA0 ≤ b1) ∧ (b = 0xED → b1 < 0xA0)) :
    utf8Decode (b :: b1 :: b2 :: t) =
      (utf8Decode t).map
        (fun cs => ((b - 0xE0) * 4096 + (b1 - 0x80) * 64 + (b2 - 0x80)) :: cs) := by
  rw [utf8Decode.eq_def]
  dsimp only
  rw [if_neg (by omega), if_neg (by omega), if_pos (by omega), if_neg (by omega),
    if_pos (by omega), if_pos h]

theorem utf8Decode_cons4 (b b1 b2 b3 : Nat) (t : List Nat) (hb : 0xF0 ≤ b ∧ b < 0xF5)
    (h : (0x80 ≤ b1 ∧ b1 < 0xC0) ∧ (0x80 ≤ b2 ∧ b2 < 0xC0) ∧ (0x80 ≤ b3 ∧ b3 < 0xC0)
        ∧ (b = 0xF0 → 0x90 ≤ b1) ∧ (b = 0xF4 → b1 < 0x90)) :
    utf8Decode (b :: b1 :: b2 :: b3 :: t) =
      (utf8Decode t).map (fun cs =>
        ((b - 0xF0) * 262144 + (b1 - 0x80) * 4096 + (b2 - 0x80) * 64 + (b3 - 0x80)) :: cs) := by
  rw [utf8Decode.eq_def]
  dsimp only
  rw [if_neg (by omega), if_neg (by omega), if_pos (by omega), if_neg (by omega),
    if_neg (by omega), if_pos h]

theorem utf8Decode_encode_append (c : Nat) (hc : ScalarValue c) (r : List Nat) :
    utf8Decode (utf8EncodeScalar c ++ r) = (utf8Decode r).map (fun cs => c :: cs) := by
  obtain ⟨hlt, hsur⟩ := hc
  by_cases h1 : c < 0x80
  · rw [utf8EncodeScalar, if_pos h1]
    simpa using utf8Decode_cons1 c r h1
  · by_cases h2 : c < 0x800
    · rw [utf8EncodeScalar, if_neg h1, if_pos h2]
      rw [List.cons_append, List.cons_append, List.nil_append,
        utf8Decode_cons2 _ _ _ (by omega) (by omega)]
      have e : (0xC0 + c / 64 - 0xC0) * 64 + (0x80 + c % 64 - 0x80) = c := by omega
      rw [e]
    · by_cases h3 : c < 0x10000
      · rw [utf8EncodeScalar, if_neg h1, if_neg h2, if_pos h3]
        rw [List.cons_append, List.cons_append, List.cons_append, List.nil_append,
          utf8Decode_cons3 _ _ _ _ (by omega) (by omega)]
        have e : (0xE0 + c / 4096 - 0xE0) * 4096 + (0x80 + c / 64 % 64 - 0x80) * 64
            + (0x80 + c % 64 - 0x80) = c := by omega
        rw [e]
      · rw [utf8EncodeScalar, if_neg h1, if_neg h2, if_neg h3]
        rw [List.cons_append, List.cons_append, List.cons_append, List.cons_append,
          List.nil_append, utf8Decode_cons4 _ _ _ _ _ (by omega) (by omega)]
        have e : (0xF0 + c / 262144 - 0xF0) * 262144 + (0x80 + c / 4096 % 64 - 0x80) * 4096
            + (0x80 + c / 64 % 64 - 0x80) * 64 + (0x80 + c % 64 - 0x80) = c := by omega
        rw [e]

theorem utf8EncodeScalar_one (b : Nat) (hb : b < 0x80) :
    utf8EncodeScalar b = [b] ∧ ScalarValue b := by
  rw [utf8EncodeScalar, if_pos hb]
  exact ⟨rfl, by omega, by omega⟩

theorem utf8EncodeScalar_two (b b1 : Nat) (hb : 0xC2 ≤ b ∧ b < 0xE0)
    (h1 : 0x80 ≤ b1 ∧ b1 < 0xC0) :
    utf8EncodeScalar ((b - 0xC0) * 64 + (b1 - 0x80)) = [b, b1]
      ∧ ScalarValue ((b - 0xC0) * 64 + (b1 - 0x80)) := by
  rw [utf8EncodeScalar, if_neg (by omega), if_pos (by omega)]
  refine ⟨?_, by omega, by omega⟩
  simp only [List.cons.injEq, and_true]
  omega

theorem utf8EncodeScalar_three (b b1 b2 : Nat) (hb : 0xE0 ≤ b ∧ b < 0xF0)
    (h : (0x80 ≤ b1 ∧ b1 < 0xC0) ∧ (0x80 ≤ b2 ∧ b2 < 0xC0)
        ∧ (b = 0xE0 → 0xA0 ≤ b1) ∧ (b = 0xED → b1 < 0xA0)) :
    utf8EncodeScalar ((b - 0xE0) * 4096 + (b1 - 0x80) * 64 + (b2 - 0x80)) = [b, b1, b2]
      ∧ ScalarValue ((b - 0xE0) * 4096 + (b1 - 0x80) * 64 + (b2 - 0x80)) := by
  rw [utf8EncodeScalar, if_neg (by omega), if_neg (by omega), if_pos (by omega)]
  refine ⟨?_, by omega, by omega⟩
  simp only [List.cons.injEq, and_true]
  omega

theorem utf8EncodeScalar_four (b b1 b2 b3 : Nat) (hb : 0xF0 ≤ b ∧ b < 0xF5)
    (h : (0x80 ≤ b1 ∧ b1 < 0xC0) ∧ (0x80 ≤ b2 ∧ b2 < 0xC0) ∧ (0x80 ≤ b3 ∧ b3 < 0xC0)
        ∧ (b = 0xF0 → 0x90 ≤ b1) ∧ (b = 0xF4 → b1 < 0x90)) :
    utf8EncodeScalar ((b - 0xF0) * 262144 + (b1 - 0x80) * 4096 + (b2 - 0x80) * 64 + (b3 - 0x80))
        = [b, b1, b2, b3]
      ∧ ScalarValue ((b - 0xF0) * 262144 + (b1 - 0x80) * 4096 + (b2 - 0x80) * 64 + (b3 - 0x80))
      := by
  rw [utf8EncodeScalar, if_neg (by omega), if_neg (by omega), if_neg (by omega)]
  refine ⟨?_, by omega, by omega⟩
  simp only [List.cons.injEq, and_true]
  omega

/-- Every successful decode peels one whole scalar encoding off the front. -/
theorem utf8Decode_some_shape (bs cs : List Nat) (h : utf8Decode bs = some cs) :
    (bs = [] ∧ cs = []) ∨
    ∃ c rest cs2, ScalarValue c ∧ bs = utf8EncodeScalar c ++ rest ∧
      utf8Decode rest = some cs2 ∧ cs = c :: cs2 := by
  match bs with
  | [] =>
    left
    rw [utf8Decode] at h
    exact ⟨rfl, by simpa using h.symm⟩
  | b :: t =>
    right
    rw [utf8Decode.eq_def] at h
    dsimp only at h
    by_cases h1 : b < 0x80
    · rw [if_pos h1] at h
      obtain ⟨cs2, hrest, hcs⟩ := (Option.map_eq_some').mp h
      obtain ⟨he, hsc⟩ := utf8EncodeScalar_one b h1
      exact ⟨b, t, cs2, hsc, by rw [he]; rfl, hrest, hcs.symm⟩
    · rw [if_neg h1] at h
      by_cases h2 : b < 0xC2
      · rw [if_pos h2] at h
        exact Option.noConfusion h
      · rw [if_neg h2] at h
        by_cases h3 : b < 0xF5
        · rw [if_pos h3] at h
          match t with
          | [] => exact Option.noConfusion h
          | b1 :: t1 =>
            dsimp only at h
            by_cases h4 : b < 0xE0
            · rw [if_pos h4] at h
              by_cases h5 : 0x80 ≤ b1 ∧ b1 < 0xC0
              · rw [if_pos h5] at h
                obtain ⟨cs2, hrest, hcs⟩ := (Option.map_eq_some').mp h
                obtain ⟨he, hsc⟩ := utf8EncodeScalar_two b b1 (by omega) h5
                exact ⟨_, t1, cs2, hsc, by rw [he]; rfl, hrest, hcs.symm⟩
              · rw [if_neg h5] at h
                exact Option.noConfusion h
            · rw [if_neg h4] at h
              match t1 with
              | [] => exact Option.noConfusion h
              | b2 :: t2 =>
                dsimp only at h
                by_cases h6 : b < 0xF0
                · rw [if_pos h6] at h
                  by_cases h7 : (0x80 ≤ b1 ∧ b1 < 0xC0) ∧ (0x80 ≤ b2 ∧ b2 < 0xC0)
                      ∧ (b = 0xE0 → 0xA0 ≤ b1) ∧ (b = 0xED → b1 < 0xA0)
                  · rw [if_pos h7] at h
                    obtain ⟨cs2, hrest, hcs⟩ := (Option.map_eq_some').mp h
                    obtain ⟨he, hsc⟩ := utf8EncodeScalar_three b b1 b2 (by omega) h7
                    exact ⟨_, t2, cs2, hsc, by rw [he]; rfl, hrest, hcs.symm⟩
                  · rw [if_neg h7] at h
                    exact Option.noConfusion h
                · rw [if_neg h6] at h
                  match t2 with
                  | [] => exact Option.noConfusion h
                  | b3 :: t3 =>
                    dsimp only at h
                    by_cases h8 : (0x80 ≤ b1 ∧ b1 < 0xC0) ∧ (0x80 ≤ b2 ∧ b2 < 0xC0)
                        ∧ (0x80 ≤ b3 ∧ b3 < 0xC0) ∧ (b = 0xF0 → 0x90 ≤ b1)
                        ∧ (b = 0xF4 → b1 < 0x90)
                    · rw [if_pos h8] at h
                      obtain ⟨cs2, hrest, hcs⟩ := (Option.map_eq_some').mp h
                      obtain ⟨he, hsc⟩ := utf8EncodeScalar_four b b1 b2 b3 (by omega) h8
                      exact ⟨_, t3, cs2, hsc, by rw [he]; rfl, hrest, hcs.symm⟩
                    · rw [if_neg h8] at h
                      exact Option.noConfusion h
        · rw [if_neg h3] at h
          exact Option.noConfusion h

/-- A valid byte list is exactly the concatenation of the encodings of its
decoded scalars, and every decoded scalar is a Unicode scalar value. -/
theorem utf8Decode_inversion (cs : List Nat) :
    ∀ bs, utf8Decode bs = some cs →
      bs = (cs.map utf8EncodeScalar).flatten ∧ ∀ c ∈ cs, ScalarValue c := by
  induction cs with
  | nil =>
    intro bs h
    rcases utf8Decode_some_shape bs [] h with ⟨hbs, _⟩ | ⟨c, rest, cs2, _, _, _, hcs⟩
    · simp [hbs]
    · exact absurd hcs (by simp)
  | cons c cs ih =>
    intro bs h
    rcases utf8Decode_some_shape bs (c :: cs) h with ⟨_, hcs⟩ | ⟨c2, rest, cs2, hsc, hbs, hrest, hcs⟩
    · exact absurd hcs (by simp)
    · obtain ⟨rfl, rfl⟩ : c2 = c ∧ cs2 = cs := by simpa using hcs.symm
      obtain ⟨hrest2, hall⟩ := ih rest hrest
      constructor
      · rw [hbs, hrest2]
        simp
      · intro x hx
        rcases List.mem_cons.mp hx with rfl | hx2
        · exact hsc
        · exact hall x hx2

/-- Decoding the concatenated encodings of scalar values, followed by any
tail, decodes the scalars and continues with the tail. -/
theorem utf8Decode_flatten_append (cs : List Nat) (h : ∀ c ∈ cs, ScalarValue c)
    (r : List Nat) :
    utf8Decode ((cs.map utf8EncodeScalar).flatten ++ r) =
      (utf8Decode r).map (fun l => cs ++ l) := by
  induction cs with
  | nil =>
    simp only [List.map_nil, List.flatten_nil, List.nil_append]
    cases utf8Decode r <;> simp
  | cons c cs ih =>
    simp only [List.map_cons, List.flatten_cons, List.append_assoc]
    rw [utf8Decode_encode_append c (h c (by simp)) _, ih (fun x hx => h x (by simp [hx]))]
    cases utf8Decode r <;> simp

theorem utf8Decode_flatten (cs : List Nat) (h : ∀ c ∈ cs, ScalarValue c) :
    utf8Decode ((cs.map utf8EncodeScalar).flatten) = some cs := by
  have := utf8Decode_flatten_append cs h []
  simpa [utf8Decode] using this

/-- Decoding a concatenation whose first part is valid decodes the parts in
sequence. -/
theorem utf8Decode_append (a cs r : List Nat) (h : utf8Decode a = some cs) :
    utf8Decode (a ++ r) = (utf8Decode r).map (fun l => cs ++ l) := by
  obtain ⟨ha, hall⟩ := utf8Decode_inversion cs a h
  rw [ha]
  exact utf8Decode_flatten_append cs hall r

/-- UTF-8 validity is closed under concatenation. -/
theorem Utf8Valid_append (a b : List Nat) (ha : Utf8Valid a) (hb : Utf8Valid b) :
    Utf8Valid (a ++ b) := by
  unfold Utf8Valid at *
  obtain ⟨cs, hcs⟩ := Option.isSome_iff_exists.mp ha
  obtain ⟨ds, hds⟩ := Option.isSome_iff_exists.mp hb
  rw [utf8Decode_append a cs b hcs, hds]
  rfl

theorem utf8Width_pos (c : Nat) : 1 ≤ utf8Width c := by
  unfold utf8Width
  split_ifs <;> omega

theorem utf8Width_le_four (c : Nat) : utf8Width c ≤ 4 := by
  unfold utf8Width
  split_ifs <;> omega

theorem utf8EncodeScalar_length (c : Nat) :
    (utf8EncodeScalar c).length = utf8Width c := by
  unfold utf8EncodeScalar utf8Width
  split_ifs <;> rfl

theorem Utf8Valid_nil : Utf8Valid [] := by
  unfold Utf8Valid utf8Decode
  rfl

theorem Utf8Valid_single (c : Nat) (hc : ScalarValue c) : Utf8Valid (utf8EncodeScalar c) := by
  have := utf8Decode_flatten [c] (by simpa using hc)
  unfold Utf8Valid
  simp only [List.map_cons, List.map_nil, List.flatten_cons, List.flatten_nil,
    List.append_nil] at this
  rw [this]
  rfl

/-- Every byte of a scalar's encoding after the first is a continuation
byte. -/
theorem utf8EncodeScalar_interior (c i : Nat) (hc : ScalarValue c) (h0 : 0 < i)
    (hi : i < (utf8EncodeScalar c).length) :
    ∃ b, (utf8EncodeScalar c)[i]? = some b ∧ 0x80 ≤ b ∧ b < 0xC0 := by
  obtain ⟨hlt, hsur⟩ := hc
  unfold utf8EncodeScalar at *
  split_ifs at * with h1 h2 h3
  · simp at hi
    omega
  · obtain rfl : i = 1 := by simp at hi; omega
    exact ⟨0x80 + c % 64, rfl, by omega, by omega⟩
  · obtain hI : i = 1 ∨ i = 2 := by simp at hi; omega
    rcases hI with rfl | rfl
    · exact ⟨0x80 + c / 64 % 64, rfl, by omega, by omega⟩
    · exact ⟨0x80 + c % 64, rfl, by omega, by omega⟩
  · obtain hI : i = 1 ∨ i = 2 ∨ i = 3 := by simp at hi; omega
    rcases hI with rfl | rfl | rfl
    · exact ⟨0x80 + c / 4096 % 64, rfl, by omega, by omega⟩
    · exact ⟨0x80 + c / 64 % 64, rfl, by omega, by omega⟩
    · exact ⟨0x80 + c % 64, rfl, by omega, by omega⟩

/-- A true character-boundary test on valid content splits it into a valid
prefix and a valid suffix. -/
theorem byteBoundary_valid_split (cs : List Nat) (hall : ∀ c ∈ cs, ScalarValue c) :
    ∀ i, SliceString.byteBoundary ((cs.map utf8EncodeScalar).flatten) i = true →
      Utf8Valid (((cs.map utf8EncodeScalar).flatten).take i)
      ∧ Utf8Valid (((cs.map utf8EncodeScalar).flatten).drop i) := by
  induction cs with
  | nil =>
    intro i hb
    constructor <;> simpa using Utf8Valid_nil
  | cons c cs ih =>
    intro i hb
    have hcsc : ScalarValue c := hall c (by simp)
    have hall2 : ∀ x ∈ cs, ScalarValue x := fun x hx => hall x (by simp [hx])
    simp only [List.map_cons, List.flatten_cons] at hb ⊢
    by_cases hi0 : i = 0
    · subst hi0
      constructor
      · simpa using Utf8Valid_nil
      · simp only [List.drop_zero]
        have := utf8Decode_flatten (c :: cs) hall
        simp only [List.map_cons, List.flatten_cons] at this
        unfold Utf8Valid
        rw [this]
        rfl
    · by_cases hiw : i < (utf8EncodeScalar c).length
      · exfalso
        obtain ⟨b, hgb, hb1, hb2⟩ :=
          utf8EncodeScalar_interior c i hcsc (by omega) hiw
        unfold SliceString.byteBoundary at hb
        rw [if_neg hi0, List.getElem?_append_left hiw, hgb] at hb
        simp at hb
        omega
      · push_neg at hiw
        have hbrest : SliceString.byteBoundary ((cs.map utf8EncodeScalar).flatten)
            (i - (utf8EncodeScalar c).length) = true := by
          by_cases hiw2 : i = (utf8EncodeScalar c).length
          · unfold SliceString.byteBoundary
            rw [if_pos (by omega)]
          · unfold SliceString.byteBoundary at hb ⊢
            rw [if_neg hi0, List.getElem?_append_right hiw] at hb
            rw [if_neg (by omega)]
            cases hx : ((cs.map utf8EncodeScalar).flatten)[i - (utf8EncodeScalar c).length]? with
            | none =>
              rw [hx] at hb
              simp only [List.length_append] at hb
              simp only [decide_eq_true_eq] at hb ⊢
              omega
            | some b =>
              rw [hx] at hb
              exact hb
        obtain ⟨hvt, hvd⟩ := ih hall2 (i - (utf8EncodeScalar c).length) hbrest
        constructor
        · rw [List.take_append_eq_append_take, List.take_of_length_le hiw]
          exact Utf8Valid_append _ _ (Utf8Valid_single c hcsc) hvt
        · rw [List.drop_append_eq_append_drop, List.drop_eq_nil_of_le hiw,
            List.nil_append]
          exact hvd

/-! ### Operation-level helper lemmas -/

namespace SliceString

theorem content_length (s : SliceString) (h : s.len ≤ s.capacity) :
    s.content.length = s.len := by
  unfold content capacity at *
  simp [List.length_take]
  omega

theorem push_str_some (s : SliceString) (bs : List Nat) (s2 : SliceString)
    (h : push_str s bs = some s2) :
    s2.content = s.content ++ bs ∧ s2.len = s.len + bs.length
      ∧ s2.capacity = s.capacity ∧ (bs ≠ [] → s.len + bs.length ≤ s.capacity) := by
  unfold push_str at h
  by_cases hemp : bs.isEmpty
  · rw [if_pos hemp] at h
    obtain rfl : s = s2 := by simpa using h
    obtain rfl : bs = [] := by simpa [List.isEmpty_iff] using hemp
    simp [capacity]
  · rw [if_neg hemp] at h
    by_cases hcap : s.len + bs.length ≤ s.capacity
    · rw [if_pos hcap] at h
      obtain rfl : (⟨s.data.take s.len ++ bs ++ s.data.drop (s.len + bs.length),
          s.len + bs.length⟩ : SliceString) = s2 := by simpa using h
      have hlen : s.len ≤ s.data.length := by
        unfold capacity at hcap
        have : 1 ≤ bs.length := by
          cases bs with
          | nil => simp at hemp
          | cons x xs => simp
        omega
      have htl : (s.data.take s.len).length = s.len := by
        simp [List.length_take]
        omega
      refine ⟨?_, rfl, ?_, fun _ => hcap⟩
      · unfold content
        dsimp only
        rw [List.take_append_eq_append_take, List.take_append_eq_append_take, htl,
          List.take_of_length_le (by omega)]
        simp [htl]
      · unfold capacity at *
        simp [List.length_take, List.length_drop]
        omega
    · rw [if_neg hcap] at h
      exact Option.noConfusion h

theorem push_str_isNone (s : SliceString) (bs : List Nat) (hlen : s.len ≤ s.capacity) :
    (push_str s bs).isNone = true ↔ s.capacity < s.len + bs.length := by
  unfold push_str
  by_cases hemp : bs.isEmpty
  · rw [if_pos hemp]
    obtain rfl : bs = [] := by simpa [List.isEmpty_iff] using hemp
    simp
    omega
  · rw [if_neg hemp]
    by_cases hcap : s.len + bs.length ≤ s.capacity
    · rw [if_pos hcap]
      simp
      omega
    · rw [if_neg hcap]
      simp
      omega

theorem push_some (s : SliceString) (c : Nat) (s2 : SliceString)
    (h : push s c = some s2) :
    s2.content = s.content ++ utf8EncodeScalar c ∧ s2.len = s.len + utf8Width c
      ∧ s2.capacity = s.capacity ∧ s.len + utf8Width c ≤ s.capacity := by
  unfold push at h
  by_cases hw : utf8Width c = 1
  · rw [if_pos hw] at h
    by_cases hcap : s.len < s.capacity
    · rw [if_pos hcap] at h
      obtain rfl : (⟨s.data.set s.len c, s.len + 1⟩ : SliceString) = s2 := by simpa using h
      have hlt : s.len < s.data.length := hcap
      have henc : utf8EncodeScalar c = [c] := by
        unfold utf8Width at hw
        unfold utf8EncodeScalar
        split_ifs at hw ⊢ with h1 <;> first | rfl | omega
      have htl : (s.data.take s.len).length = s.len := by
        simp [List.length_take]
        omega
      refine ⟨?_, by dsimp only; rw [hw], ?_, by rw [hw]; exact hcap⟩
      · unfold content
        dsimp only
        rw [List.set_eq_take_cons_drop c hlt, henc, List.take_append_eq_append_take]
        rw [List.take_of_length_le (by omega)]
        simp [htl]
      · unfold capacity
        simp
    · rw [if_neg hcap] at h
      exact Option.noConfusion h
  · rw [if_neg hw] at h
    obtain ⟨h1, h2, h3, h4⟩ := push_str_some s _ s2 h
    have hne : utf8EncodeScalar c ≠ [] := by
      have hL := utf8EncodeScalar_length c
      have hP := utf8Width_pos c
      intro hnil
      rw [hnil] at hL
      simp at hL
      omega
    have h5 := h4 hne
    rw [utf8EncodeScalar_length] at h2 h5
    exact ⟨h1, h2, h3, h5⟩

theorem push_isNone (s : SliceString) (c : Nat) (hlen : s.len ≤ s.capacity) :
    (push s c).isNone = true ↔ s.capacity < s.len + utf8Width c := by
  unfold push
  by_cases hw : utf8Width c = 1
  · rw [if_pos hw, hw]
    by_cases hcap : s.len < s.capacity
    · rw [if_pos hcap]
      simp
      omega
    · rw [if_neg hcap]
      simp
      omega
  · rw [if_neg hw]
    rw [push_str_isNone s _ hlen, utf8EncodeScalar_length]

theorem boundary_at_len (s : SliceString) (hlen : s.len ≤ s.capacity) :
    s.is_char_boundary s.len = true := by
  unfold is_char_boundary byteBoundary
  by_cases h0 : s.len = 0
  · rw [if_pos h0]
  · rw [if_neg h0]
    have hcl := s.content_length hlen
    have : s.content[s.len]? = none := by
      rw [List.getElem?_eq_none]
      omega
    rw [this]
    simp [hcl]

theorem truncate_spec (s : SliceString) (n : Nat) (hlen : s.len ≤ s.capacity) :
    (s.len ≤ n → truncate s n = some s) ∧
    (n < s.len → s.is_char_boundary n = true → truncate s n = some ⟨s.data, n⟩) ∧
    (n < s.len → s.is_char_boundary n = false → truncate s n = none) := by
  refine ⟨?_, ?_, ?_⟩
  · intro hge
    unfold truncate
    by_cases heq : n ≤ s.len
    · have : n = s.len := by omega
      subst this
      rw [if_pos le_rfl, if_pos (boundary_at_len s hlen)]
    · rw [if_neg heq]
  · intro hlt hb
    unfold truncate
    rw [if_pos (by omega), if_pos hb]
  · intro hlt hb
    unfold truncate
    rw [if_pos (by omega), hb]
    rfl

theorem pop_spec (s : SliceString) (cs : List Nat) (hlen : s.len ≤ s.capacity)
    (hdec : utf8Decode s.content = some cs) :
    (cs = [] → pop s = (none, s)) ∧
    (∀ c, cs.getLast? = some c →
      (pop s).1 = some c ∧ (pop s).2.data = s.data
      ∧ (pop s).2.len = s.len - utf8Width c
      ∧ (pop s).2.content ++ utf8EncodeScalar c = s.content
      ∧ Utf8Valid (pop s).2.content) := by
  constructor
  · rintro rfl
    unfold pop
    rw [hdec]
    rfl
  · intro c hc
    obtain ⟨cs2, rfl⟩ := List.getLast?_eq_some_iff.mp hc
    obtain ⟨hflat, hall⟩ := utf8Decode_inversion _ _ hdec
    have hallc : ScalarValue c := hall c (by simp)
    have hall2 : ∀ x ∈ cs2, ScalarValue x := fun x hx => hall x (by simp [hx])
    have hX : s.content = (cs2.map utf8EncodeScalar).flatten ++ utf8EncodeScalar c := by
      rw [hflat]
      simp
    have hpop : pop s = (some c, { s with len := s.len - utf8Width c }) := by
      unfold pop
      rw [hdec]
      simp [hc]
    have hclen : s.content.length = s.len := s.content_length hlen
    have hXlen : (cs2.map utf8EncodeScalar).flatten.length + utf8Width c = s.len := by
      have := congrArg List.length hX
      simp only [List.length_append] at this
      rw [utf8EncodeScalar_length] at this
      omega
    have hncont : ({ s with len := s.len - utf8Width c } : SliceString).content
        = (cs2.map utf8EncodeScalar).flatten := by
      unfold content
      dsimp only
      have h1 : s.data.take (s.len - utf8Width c) = (s.data.take s.len).take (s.len - utf8Width c) := by
        rw [List.take_take]
        congr 1
        omega
      rw [h1]
      show s.content.take (s.len - utf8Width c) = _
      rw [hX]
      have h2 : s.len - utf8Width c = (cs2.map utf8EncodeScalar).flatten.length := by omega
      rw [h2, List.take_left]
    rw [hpop]
    refine ⟨rfl, rfl, rfl, ?_, ?_⟩
    · rw [hncont, hX]
    · rw [hncont]
      unfold Utf8Valid
      rw [utf8Decode_flatten cs2 hall2]
      rfl

theorem split_off_some (s : SliceString) (i : Nat) (hcap : i ≤ s.capacity)
    (hb : i ≤ s.len → s.is_char_boundary i = true) :
    split_off s i = some (⟨s.data.take i, min s.len i⟩, ⟨s.data.drop i, s.len - i⟩) := by
  unfold split_off
  rw [if_neg, if_neg (by simp only [capacity] at hcap ⊢; omega)]
  intro ⟨hle, hnb⟩
  exact hnb (hb hle)

theorem split_off_contents (s : SliceString) (i : Nat) :
    (SliceString.mk (s.data.take i) (min s.len i)).content
        = s.content.take i
      ∧ ((i ≤ s.len → (SliceString.mk (s.data.drop i) (s.len - i)).content
        = s.content.drop i)
      ∧ (s.len < i → (SliceString.mk (s.data.drop i) (s.len - i)).content = [])) := by
  refine ⟨?_, ?_, ?_⟩
  · unfold content
    dsimp only
    rw [List.take_take, List.take_take]
    congr 1
    omega
  · intro hle
    unfold content
    dsimp only
    rw [List.drop_take]
  · intro hlt
    unfold content
    dsimp only
    have : s.len - i = 0 := by omega
    rw [this, List.take_zero]

theorem push_str_isSome (s : SliceString) (bs : List Nat)
    (h : s.len + bs.length ≤ s.capacity) : ∃ s2, push_str s bs = some s2 := by
  unfold push_str
  by_cases hemp : bs.isEmpty
  · rw [if_pos hemp]
    exact ⟨s, rfl⟩
  · rw [if_neg hemp, if_pos h]
    exact ⟨_, rfl⟩

theorem push_isSome (s : SliceString) (c : Nat)
    (h : s.len + utf8Width c ≤ s.capacity) : ∃ s2, push s c = some s2 := by
  unfold push
  by_cases hw : utf8Width c = 1
  · rw [if_pos hw, if_pos (by omega)]
    exact ⟨_, rfl⟩
  · rw [if_neg hw]
    exact push_str_isSome s _ (by rw [utf8EncodeScalar_length]; exact h)

theorem write_str_spec (s : SliceString) (bs : List Nat) :
    (s.len + bs.length ≤ s.capacity →
      ∃ s2, push_str s bs = some s2 ∧ write_str s bs = (Except.ok (), s2)) ∧
    (s.capacity < s.len + bs.length →
      write_str s bs = (Except.error FmtError.fmtError, s)) := by
  constructor
  · intro hle
    obtain ⟨s2, hs2⟩ := push_str_isSome s bs hle
    refine ⟨s2, hs2, ?_⟩
    unfold write_str
    rw [if_neg (by omega), hs2]
  · intro hgt
    unfold write_str
    rw [if_pos hgt]

theorem write_char_spec (s : SliceString) (c : Nat) :
    (s.len + utf8Width c ≤ s.capacity →
      ∃ s2, push s c = some s2 ∧ write_char s c = (Except.ok (), s2)) ∧
    (s.capacity < s.len + utf8Width c →
      write_char s c = (Except.error FmtError.fmtError, s)) := by
  constructor
  · intro hle
    obtain ⟨s2, hs2⟩ := push_isSome s c hle
    refine ⟨s2, hs2, ?_⟩
    unfold write_char
    rw [if_neg (by omega), hs2]
  · intro hgt
    unfold write_char
    rw [if_pos hgt]

theorem split_off_inv (s : SliceString) (i : Nat) (r t : SliceString)
    (h : split_off s i = some (r, t)) :
    i ≤ s.capacity ∧ (i ≤ s.len → s.is_char_boundary i = true)
      ∧ r = ⟨s.data.take i, min s.len i⟩ ∧ t = ⟨s.data.drop i, s.len - i⟩ := by
  unfold split_off at h
  by_cases h1 : i ≤ s.len ∧ ¬s.is_char_boundary i
  · rw [if_pos h1] at h
    exact Option.noConfusion h
  · rw [if_neg h1] at h
    by_cases h2 : s.capacity < i
    · rw [if_pos h2] at h
      exact Option.noConfusion h
    · rw [if_neg h2] at h
      have hp := Option.some.inj h
      refine ⟨by omega, ?_, (congrArg Prod.fst hp).symm, (congrArg Prod.snd hp).symm⟩
      intro hle
      by_cases hb : s.is_char_boundary i
      · exact hb
      · exact absurd ⟨hle, hb⟩ h1

theorem step_preserves_len {s s2 : SliceString} (hlen : s.len ≤ s.capacity)
    (h : Step s s2) : s2.len ≤ s2.capacity := by
  cases h with
  | clear =>
    simp [SliceString.clear, capacity]
  | truncate n s2 h =>
    unfold SliceString.truncate at h
    by_cases hle : n ≤ s.len
    · rw [if_pos hle] at h
      by_cases hb : s.is_char_boundary n
      · rw [if_pos hb] at h
        obtain rfl := Option.some.inj h
        simp only [capacity] at *
        omega
      · rw [if_neg hb] at h
        exact Option.noConfusion h
    · rw [if_neg hle] at h
      obtain rfl := Option.some.inj h
      exact hlen
  | pop =>
    unfold SliceString.pop
    cases hm : (utf8Decode s.content).bind List.getLast? with
    | none =>
      exact hlen
    | some c =>
      dsimp only
      simp only [capacity] at *
      omega
  | push c s2 hc h =>
    obtain ⟨-, h2, h3, h4⟩ := SliceString.push_some s c s2 h
    omega
  | pushStr bs s2 hv h =>
    obtain ⟨-, h2, h3, h4⟩ := SliceString.push_str_some s bs s2 h
    by_cases hbs : bs = []
    · subst hbs
      simp only [List.length_nil] at h2
      omega
    · have := h4 hbs
      omega
  | splitRetained n r t h =>
    obtain ⟨hcap, hbnd, rfl, rfl⟩ := SliceString.split_off_inv s n s2 t h
    simp only [capacity, List.length_take] at *
    omega
  | splitReturned n r t h =>
    obtain ⟨hcap, hbnd, rfl, rfl⟩ := SliceString.split_off_inv s n r s2 h
    simp only [capacity, List.length_drop] at *
    omega
  | writeStr bs hv =>
    by_cases hcgt : s.capacity < s.len + bs.length
    · rw [(SliceString.write_str_spec s bs).2 hcgt]
      exact hlen
    · obtain ⟨s3, hps, heq⟩ := (SliceString.write_str_spec s bs).1 (by omega)
      rw [heq]
      show s3.len ≤ s3.capacity
      obtain ⟨-, h2, h3, h4⟩ := SliceString.push_str_some s bs s3 hps
      by_cases hbs : bs = []
      · subst hbs
        simp only [List.length_nil] at h2
        omega
      · have := h4 hbs
        omega
  | writeChar c hc =>
    by_cases hcgt : s.capacity < s.len + utf8Width c
    · rw [(SliceString.write_char_spec s c).2 hcgt]
      exact hlen
    · obtain ⟨s3, hps, heq⟩ := (SliceString.write_char_spec s c).1 (by omega)
      rw [heq]
      show s3.len ≤ s3.capacity
      obtain ⟨-, h2, h3, h4⟩ := SliceString.push_some s c s3 hps
      omega

theorem step_preserves_Inv {s s2 : SliceString} (hInv : Inv s) (h : Step s s2) :
    Inv s2 := by
  refine ⟨step_preserves_len hInv.1 h, ?_⟩
  obtain ⟨hlen, hval⟩ := hInv
  obtain ⟨cs, hcs⟩ := Option.isSome_iff_exists.mp hval
  obtain ⟨hflat, hall⟩ := utf8Decode_inversion cs s.content hcs
  cases h with
  | clear =>
    have : (s.clear).content = [] := by
      simp [SliceString.clear, SliceString.content]
    rw [this]
    exact Utf8Valid_nil
  | truncate n s2 h =>
    unfold SliceString.truncate at h
    by_cases hle : n ≤ s.len
    · rw [if_pos hle] at h
      by_cases hb : s.is_char_boundary n
      · rw [if_pos hb] at h
        obtain rfl := Option.some.inj h
        have hcnt : ({ s with len := n } : SliceString).content = s.content.take n := by
          unfold SliceString.content
          dsimp only
          rw [List.take_take]
          congr 1
          omega
        rw [hcnt]
        have hb2 : SliceString.byteBoundary s.content n = true := hb
        rw [hflat] at hb2
        have hsplit := byteBoundary_valid_split cs hall n hb2
        rw [← hflat] at hsplit
        exact hsplit.1
      · rw [if_neg hb] at h
        exact Option.noConfusion h
    · rw [if_neg hle] at h
      obtain rfl := Option.some.inj h
      exact hval
  | pop =>
    obtain ⟨hemp, hlast⟩ := SliceString.pop_spec s cs hlen hcs
    cases hgl : cs.getLast? with
    | none =>
      rw [hemp (List.getLast?_eq_none_iff.mp hgl)]
      exact hval
    | some c =>
      obtain ⟨-, -, -, -, h5⟩ := hlast c hgl
      exact h5
  | push c s2 hc h =>
    obtain ⟨h1, -, -, -⟩ := SliceString.push_some s c s2 h
    rw [h1]
    exact Utf8Valid_append _ _ hval (Utf8Valid_single c hc)
  | pushStr bs s2 hv h =>
    obtain ⟨h1, -, -, -⟩ := SliceString.push_str_some s bs s2 h
    rw [h1]
    exact Utf8Valid_append _ _ hval hv
  | splitRetained n r t h =>
    obtain ⟨hcap, hbnd, rfl, rfl⟩ := SliceString.split_off_inv s n s2 t h
    obtain ⟨hcr, hct_le, hct_gt⟩ := SliceString.split_off_contents s n
    rw [hcr]
    by_cases hle : n ≤ s.len
    · have hb2 : SliceString.byteBoundary s.content n = true := hbnd hle
      rw [hflat] at hb2
      have hsplit := byteBoundary_valid_split cs hall n hb2
      rw [← hflat] at hsplit
      exact hsplit.1
    · have hfull : s.content.length ≤ n := by
        rw [s.content_length hlen]
        omega
      rw [List.take_of_length_le hfull]
      exact hval
  | splitReturned n r t h =>
    obtain ⟨hcap, hbnd, rfl, rfl⟩ := SliceString.split_off_inv s n r s2 h
    obtain ⟨hcr, hct_le, hct_gt⟩ := SliceString.split_off_contents s n
    by_cases hle : n ≤ s.len
    · rw [hct_le hle]
      have hb2 : SliceString.byteBoundary s.content n = true := hbnd hle
      rw [hflat] at hb2
      have hsplit := byteBoundary_valid_split cs hall n hb2
      rw [← hflat] at hsplit
      exact hsplit.2
    · rw [hct_gt (by omega)]
      exact Utf8Valid_nil
  | writeStr bs hv =>
    by_cases hcgt : s.capacity < s.len + bs.length
    · rw [(SliceString.write_str_spec s bs).2 hcgt]
      exact hval
    · obtain ⟨s3, hps, heq⟩ := (SliceString.write_str_spec s bs).1 (by omega)
      rw [heq]
      show Utf8Valid s3.content
      obtain ⟨h1, -, -, -⟩ := SliceString.push_str_some s bs s3 hps
      rw [h1]
      exact Utf8Valid_append _ _ hval hv
  | writeChar c hc =>
    by_cases hcgt : s.capacity < s.len + utf8Width c
    · rw [(SliceString.write_char_spec s c).2 hcgt]
      exact hval
    · obtain ⟨s3, hps, heq⟩ := (SliceString.write_char_spec s c).1 (by omega)
      rw [heq]
      show Utf8Valid s3.content
      obtain ⟨h1, -, -, -⟩ := SliceString.push_some s c s3 hps
      rw [h1]
      exact Utf8Valid_append _ _ hval (Utf8Valid_single c hc)

end SliceString

theorem from_utf8_ok (buf : List Nat) (n : Nat) (s : SliceString)
    (h : SliceString.from_utf8 buf n = some (Except.ok s)) :
    s = ⟨buf, n⟩ ∧ n ≤ buf.length ∧ Utf8Valid (buf.take n) := by
  unfold SliceString.from_utf8 at h
  by_cases h1 : n ≤ buf.length
  · rw [if_pos h1] at h
    have h2 := Option.some.inj h
    by_cases h3 : (utf8Decode (buf.take n)).isSome
    · rw [if_pos h3] at h2
      exact ⟨(Except.ok.inj h2).symm, h1, h3⟩
    · rw [if_neg h3] at h2
      exact Except.noConfusion h2
  · rw [if_neg h1] at h
    exact Option.noConfusion h

/-- Claim C1: starting from a validly constructed `SliceString` (`new`, or a
successful checked `from_utf8`), the content bytes `[0, len)` form valid
UTF-8 after every public operation returns: `Inv` holds at construction, and
along every chain of `Step`s (clear, truncate, pop, push, push_str, both
results of split_off, write_str, write_char) every reachable state has valid
UTF-8 content. -/
theorem C1_content_always_valid_utf8 :
    (∀ buf : List Nat, SliceString.Inv (SliceString.new buf)) ∧
    (∀ (buf : List Nat) (n : Nat) (s : SliceString),
      SliceString.from_utf8 buf n = some (Except.ok s) → SliceString.Inv s) ∧
    (∀ s s2 : SliceString, SliceString.Inv s →
      Relation.ReflTransGen SliceString.Step s s2 → Utf8Valid s2.content) := by
  refine ⟨?_, ?_, ?_⟩
  · intro buf
    refine ⟨Nat.zero_le _, ?_⟩
    have : (SliceString.new buf).content = [] := by
      simp [SliceString.new, SliceString.content]
    rw [this]
    exact Utf8Valid_nil
  · intro buf n s h
    obtain ⟨rfl, h1, h2⟩ := from_utf8_ok buf n s h
    exact ⟨h1, h2⟩
  · intro s s2 hInv hreach
    suffices h : SliceString.Inv s2 from h.2
    induction hreach with
    | refl => exact hInv
    | tail hsteps hstep ih => exact SliceString.step_preserves_Inv ih hstep

/-- Witness for C1: pushing the character `f` onto an empty two-byte buffer
reaches the state `⟨[102, 0], 1⟩`, whose content is valid UTF-8. -/
theorem C1_content_always_valid_utf8_witness :
    Utf8Valid (SliceString.content ⟨[102, 0], 1⟩) :=
  C1_content_always_valid_utf8.2.2 (SliceString.new [0, 0]) ⟨[102, 0], 1⟩
    ⟨by decide, by decide⟩
    (Relation.ReflTransGen.single
      (SliceString.Step.push (SliceString.new [0, 0]) 102 ⟨[102, 0], 1⟩
        (by decide) (by decide)))

/-- Claim C7: `len ≤ capacity` holds for every reachable buffer state:
immediately after construction (`new`, checked `from_utf8`) and after every
public operation along any chain of `Step`s. -/
theorem C7_len_le_capacity :
    (∀ buf : List Nat, (SliceString.new buf).len ≤ (SliceString.new buf).capacity) ∧
    (∀ (buf : List Nat) (n : Nat) (s : SliceString),
      SliceString.from_utf8 buf n = some (Except.ok s) → s.len ≤ s.capacity) ∧
    (∀ s s2 : SliceString, s.len ≤ s.capacity →
      Relation.ReflTransGen SliceString.Step s s2 → s2.len ≤ s2.capacity) := by
  refine ⟨?_, ?_, ?_⟩
  · intro buf
    exact Nat.zero_le _
  · intro buf n s h
    obtain ⟨rfl, h1, h2⟩ := from_utf8_ok buf n s h
    exact h1
  · intro s s2 hlen hreach
    induction hreach with
    | refl => exact hlen
    | tail hsteps hstep ih => exact SliceString.step_preserves_len ih hstep

/-- Witness for C7: appending the text `ab` to an empty three-byte buffer
reaches `⟨[97, 98, 0], 2⟩`, where `len = 2 ≤ 3 = capacity`. -/
theorem C7_len_le_capacity_witness :
    (⟨[97, 98, 0], 2⟩ : SliceString).len ≤ (⟨[97, 98, 0], 2⟩ : SliceString).capacity :=
  C7_len_le_capacity.2.2 (SliceString.new [0, 0, 0]) ⟨[97, 98, 0], 2⟩ (by decide)
    (Relation.ReflTransGen.single
      (SliceString.Step.pushStr (SliceString.new [0, 0, 0]) [97, 98] ⟨[97, 98, 0], 2⟩
        (by decide) (by decide)))

/-- Claim C3: for `at ≤ capacity`, with the character-boundary requirement
satisfied whenever `at ≤ len`, `split_off at` succeeds and partitions the
backing region without copying: the original retains content `[0, min(at,
len))` with capacity `at`; the returned buffer takes the bytes from `at`
with length `len - at` when `at ≤ len` and `0` when `at > len`; the two
capacities sum to the original one, and the two backing slices concatenate
back to the original region. -/
theorem C3_split_off_partition (s : SliceString) (i : Nat)
    (hlen : s.len ≤ s.capacity) (hcap : i ≤ s.capacity)
    (hb : i ≤ s.len → s.is_char_boundary i = true) :
    ∃ r t, s.split_off i = some (r, t)
      ∧ r.capacity = i
      ∧ t.capacity = s.capacity - i
      ∧ r.capacity + t.capacity = s.capacity
      ∧ r.data ++ t.data = s.data
      ∧ r.len = min i s.len
      ∧ r.content = s.content.take i
      ∧ (i ≤ s.len → t.len = s.len - i)
      ∧ (s.len < i → t.len = 0)
      ∧ (i ≤ s.len → t.content = s.content.drop i) := by
  refine ⟨⟨s.data.take i, min s.len i⟩, ⟨s.data.drop i, s.len - i⟩,
    SliceString.split_off_some s i hcap hb, ?_, ?_, ?_, ?_, ?_, ?_, ?_, ?_, ?_⟩
  · simp only [SliceString.capacity, List.length_take]
    simp only [SliceString.capacity] at hcap
    omega
  · simp only [SliceString.capacity, List.length_drop]
  · simp only [SliceString.capacity, List.length_take, List.length_drop]
    simp only [SliceString.capacity] at hcap
    omega
  · exact List.take_append_drop i s.data
  · simp only [Nat.min_comm]
  · exact (SliceString.split_off_contents s i).1
  · intro hle
    rfl
  · intro hlt
    show s.len - i = 0
    omega
  · exact (SliceString.split_off_contents s i).2.1

/-- Witness for C3: splitting `for` (capacity 4) at 2 yields `fo` with
capacity 2 and `r` (plus one spare byte) with capacity 2. -/
theorem C3_split_off_partition_witness :
    (∃ r t, SliceString.split_off ⟨[102, 111, 114, 0], 3⟩ 2 = some (r, t)
      ∧ r.capacity = 2
      ∧ t.capacity = 4 - 2
      ∧ r.capacity + t.capacity = 4
      ∧ r.data ++ t.data = [102, 111, 114, 0]
      ∧ r.len = min 2 3
      ∧ r.content = [102, 111, 114].take 2
      ∧ (2 ≤ 3 → t.len = 3 - 2)
      ∧ (3 < 2 → t.len = 0)
      ∧ (2 ≤ 3 → t.content = [102, 111, 114].drop 2))
    ∧ SliceString.split_off ⟨[102, 111, 114, 0], 3⟩ 2
        = some (⟨[102, 111], 2⟩, ⟨[114, 0], 1⟩) :=
  ⟨C3_split_off_partition ⟨[102, 111, 114, 0], 3⟩ 2 (by decide) (by decide)
    (fun _ => by decide), by decide⟩

/-- Claim C4: with `len ≤ capacity` and valid UTF-8 content decoding to
`cs`, `pop` on empty content returns `none` leaving the buffer unchanged;
on non-empty content it returns the last scalar of `cs` and shrinks `len`
by exactly that scalar's encoded width (between 1 and 4 bytes) — the
removed suffix is the scalar's whole encoding, never a single raw byte of a
longer encoding. -/
theorem C4_pop_last_scalar (s : SliceString) (cs : List Nat)
    (hlen : s.len ≤ s.capacity) (hdec : utf8Decode s.content = some cs) :
    (s.content = [] → s.pop = (none, s)) ∧
    (s.content ≠ [] → ∃ c, cs.getLast? = some c
      ∧ (s.pop).1 = some c
      ∧ ScalarValue c
      ∧ 1 ≤ utf8Width c ∧ utf8Width c ≤ 4
      ∧ (s.pop).2.len = s.len - utf8Width c
      ∧ (utf8EncodeScalar c).length = utf8Width c
      ∧ (s.pop).2.content ++ utf8EncodeScalar c = s.content
      ∧ (s.pop).2.data = s.data) := by
  obtain ⟨hemp, hlast⟩ := SliceString.pop_spec s cs hlen hdec
  obtain ⟨hflat, hall⟩ := utf8Decode_inversion cs s.content hdec
  constructor
  · intro hnil
    have : cs = [] := by
      rw [hnil] at hdec
      rw [utf8Decode] at hdec
      exact (Option.some.inj hdec).symm
    exact hemp this
  · intro hne
    have hcs_ne : cs ≠ [] := by
      rintro rfl
      simp at hflat
      exact hne hflat
    obtain ⟨c, hc⟩ := Option.isSome_iff_exists.mp
      (by rwa [List.getLast?_isSome] : (cs.getLast?).isSome = true)
    obtain ⟨h1, h2, h3, h4, h5⟩ := hlast c hc
    obtain ⟨cs2, rfl⟩ := List.getLast?_eq_some_iff.mp hc
    exact ⟨c, hc, h1, hall c (by simp), utf8Width_pos c, utf8Width_le_four c, h3,
      utf8EncodeScalar_length c, h4, h2⟩

/-- Witness for C4: popping the buffer holding the five UTF-8 bytes of
`éé` (e-acute, e, combining acute) returns the combining accent
`U+0301` and shrinks the length from 5 to 3, removing its whole 2-byte
encoding. -/
theorem C4_pop_last_scalar_witness :
    (∃ c, [233, 101, 769].getLast? = some c
      ∧ (SliceString.pop ⟨[195, 169, 101, 204, 129], 5⟩).1 = some c
      ∧ ScalarValue c
      ∧ 1 ≤ utf8Width c ∧ utf8Width c ≤ 4
      ∧ (SliceString.pop ⟨[195, 169, 101, 204, 129], 5⟩).2.len = 5 - utf8Width c
      ∧ (utf8EncodeScalar c).length = utf8Width c
      ∧ (SliceString.pop ⟨[195, 169, 101, 204, 129], 5⟩).2.content ++ utf8EncodeScalar c
          = SliceString.content ⟨[195, 169, 101, 204, 129], 5⟩
      ∧ (SliceString.pop ⟨[195, 169, 101, 204, 129], 5⟩).2.data
          = [195, 169, 101, 204, 129])
    ∧ SliceString.pop ⟨[195, 169, 101, 204, 129], 5⟩
        = (some 769, ⟨[195, 169, 101, 204, 129], 3⟩) :=
  ⟨(C4_pop_last_scalar ⟨[195, 169, 101, 204, 129], 5⟩ [233, 101, 769] (by decide)
      (by decide)).2 (by decide), by decide⟩

/-- Claim C5: with `len ≤ capacity`, `truncate new_len` is a no-op when
`new_len ≥ len`; when `new_len < len` on a character boundary it keeps
exactly the first `new_len` content bytes; when `new_len < len` is not on a
character boundary it panics (modelled `none`) instead of corrupting
state. -/
theorem C5_truncate_boundary (s : SliceString) (n : Nat)
    (hlen : s.len ≤ s.capacity) :
    (s.len ≤ n → s.truncate n = some s) ∧
    (n < s.len → s.is_char_boundary n = true →
      ∃ s2, s.truncate n = some s2 ∧ s2.content = s.content.take n ∧ s2.len = n
        ∧ s2.data = s.data) ∧
    (n < s.len → s.is_char_boundary n = false → s.truncate n = none) := by
  obtain ⟨h1, h2, h3⟩ := SliceString.truncate_spec s n hlen
  refine ⟨h1, ?_, h3⟩
  intro hlt hb
  refine ⟨⟨s.data, n⟩, h2 hlt hb, ?_, rfl, rfl⟩
  show s.data.take n = (s.data.take s.len).take n
  rw [List.take_take]
  congr 1
  omega

/-- Witness for C5: truncating `foo` to 2 keeps `fo`; truncating the
2-byte `é` to 1 (inside the encoding) panics. -/
theorem C5_truncate_boundary_witness :
    (∃ s2, SliceString.truncate ⟨[102, 111, 111], 3⟩ 2 = some s2
      ∧ s2.content = [102, 111, 111].take 2 ∧ s2.len = 2
      ∧ s2.data = [102, 111, 111])
    ∧ SliceString.truncate ⟨[195, 169], 2⟩ 1 = none :=
  ⟨(C5_truncate_boundary ⟨[102, 111, 111], 3⟩ 2 (by decide)).2.1 (by decide) (by decide),
   (C5_truncate_boundary ⟨[195, 169], 2⟩ 1 (by decide)).2.2 (by decide) (by decide)⟩

/-- Claim C6: for `n ≤ region length`, checked construction `from_utf8`
fails with `InvalidEncoding` exactly when `region[0..n]` is not valid UTF-8,
and on success yields a buffer with `len = n`, capacity the region length,
and content exactly the bytes `region[0..n]`. -/
theorem C6_from_utf8_checked (buf : List Nat) (n : Nat) (hn : n ≤ buf.length) :
    (¬Utf8Valid (buf.take n) →
      SliceString.from_utf8 buf n
        = some (Except.error SliceString.Utf8Error.invalidEncoding)) ∧
    (Utf8Valid (buf.take n) →
      ∃ s, SliceString.from_utf8 buf n = some (Except.ok s)
        ∧ s.content = buf.take n ∧ s.len = n ∧ s.capacity = buf.length) ∧
    (∀ s, SliceString.from_utf8 buf n = some (Except.ok s) →
      Utf8Valid (buf.take n)) := by
  refine ⟨?_, ?_, ?_⟩
  · intro hnv
    unfold Utf8Valid at hnv
    unfold SliceString.from_utf8
    rw [if_pos hn, if_neg hnv]
  · intro hv
    unfold Utf8Valid at hv
    refine ⟨⟨buf, n⟩, ?_, ?_, rfl, rfl⟩
    · unfold SliceString.from_utf8
      rw [if_pos hn, if_pos hv]
    · show buf.take n = buf.take n
      rfl
  · intro s h
    exact (from_utf8_ok buf n s h).2.2

/-- Witness for C6: binding `ab` (prefix of a 3-byte region) succeeds with
content `ab`; binding a lone continuation byte fails with
`InvalidEncoding`. -/
theorem C6_from_utf8_checked_witness :
    (∃ s, SliceString.from_utf8 [97, 98, 0] 2 = some (Except.ok s)
      ∧ s.content = [97, 98, 0].take 2 ∧ s.len = 2 ∧ s.capacity = 3)
    ∧ SliceString.from_utf8 [128] 1
        = some (Except.error SliceString.Utf8Error.invalidEncoding) :=
  ⟨(C6_from_utf8_checked [97, 98, 0] 2 (by decide)).2.1 (by decide),
   (C6_from_utf8_checked [128] 1 (by decide)).1 (by decide)⟩

theorem uwrite_str_spec (s : SliceString) (bs : List Nat) :
    (s.len + bs.length ≤ s.capacity →
      ∃ s2, SliceString.push_str s bs = some s2
        ∧ SliceString.uwrite_str s bs = (Except.ok (), s2)) ∧
    (s.capacity < s.len + bs.length →
      SliceString.uwrite_str s bs = (Except.error (), s)) := by
  constructor
  · intro hle
    obtain ⟨s2, hs2⟩ := SliceString.push_str_isSome s bs hle
    refine ⟨s2, hs2, ?_⟩
    unfold SliceString.uwrite_str
    rw [if_neg (by omega), hs2]
  · intro hgt
    unfold SliceString.uwrite_str
    rw [if_pos hgt]

/-- Counterexample to C2 as stated: the bare `push` and `push_str` report
capacity overflow by panicking (tinyvec's capacity panic, `none` in this
model, and `# Panics` in the crate's own documentation), not by returning a
recoverable `CapacityExceeded` error value: on a full one-byte buffer both
produce the panic outcome, which no caller can receive as an error value. -/
theorem C2_push_panic_counterexample :
    SliceString.push ⟨[102], 1⟩ 111 = none
    ∧ SliceString.push_str ⟨[102], 1⟩ [111, 111] = none := by
  constructor
  · decide
  · decide

/-- Claim C2 as amended: with `len ≤ capacity`, `push`/`push_str` fail —
by panic, not by a recoverable error — exactly when
`len + encoded_width > capacity` (the capacity check precedes any write, so
a failing call never mutates the buffer), while the `fmt::Write` adapters
`write_str`/`write_char` report the same condition as a recoverable error
and return the buffer completely unchanged. -/
theorem C2_append_overflow_amended (s : SliceString) (c : Nat) (bs : List Nat)
    (hlen : s.len ≤ s.capacity) :
    ((s.push c).isNone = true ↔ s.capacity < s.len + utf8Width c) ∧
    ((s.push_str bs).isNone = true ↔ s.capacity < s.len + bs.length) ∧
    ((s.write_str bs).1 = Except.error SliceString.FmtError.fmtError
      ↔ s.capacity < s.len + bs.length) ∧
    (s.capacity < s.len + bs.length → (s.write_str bs).2 = s) ∧
    ((s.write_char c).1 = Except.error SliceString.FmtError.fmtError
      ↔ s.capacity < s.len + utf8Width c) ∧
    (s.capacity < s.len + utf8Width c → (s.write_char c).2 = s) := by
  refine ⟨SliceString.push_isNone s c hlen, SliceString.push_str_isNone s bs hlen,
    ?_, ?_, ?_, ?_⟩
  · constructor
    · intro herr
      by_contra hcap
      obtain ⟨s2, -, heq⟩ := (SliceString.write_str_spec s bs).1 (by omega)
      rw [heq] at herr
      exact Except.noConfusion herr
    · intro hcap
      rw [(SliceString.write_str_spec s bs).2 hcap]
  · intro hcap
    rw [(SliceString.write_str_spec s bs).2 hcap]
  · constructor
    · intro herr
      by_contra hcap
      obtain ⟨s2, -, heq⟩ := (SliceString.write_char_spec s c).1 (by omega)
      rw [heq] at herr
      exact Except.noConfusion herr
    · intro hcap
      rw [(SliceString.write_char_spec s c).2 hcap]
  · intro hcap
    rw [(SliceString.write_char_spec s c).2 hcap]

/-- Witness for the amended C2: on the buffer `H` of capacity 2 (one free
byte), pushing a 2-byte character overflows and `write_char` rejects it
leaving the buffer unchanged, while pushing an ASCII byte does not
overflow. -/
theorem C2_append_overflow_amended_witness :
    ((SliceString.push ⟨[72, 0], 1⟩ 233).isNone = true ↔ 2 < 1 + utf8Width 233)
    ∧ (2 < 1 + utf8Width 233 → (SliceString.write_char ⟨[72, 0], 1⟩ 233).2 = ⟨[72, 0], 1⟩)
    ∧ ((SliceString.push ⟨[72, 0], 1⟩ 111).isNone = true ↔ 2 < 1 + utf8Width 111) :=
  ⟨(C2_append_overflow_amended ⟨[72, 0], 1⟩ 233 [] (by decide)).1,
   (C2_append_overflow_amended ⟨[72, 0], 1⟩ 233 [] (by decide)).2.2.2.2.2,
   (C2_append_overflow_amended ⟨[72, 0], 1⟩ 111 [] (by decide)).1⟩

/-- Claim C9: every operation except `split_off` — clear, truncate, pop,
push, push_str, write_str, write_char — leaves the capacity unchanged; only
`split_off at` changes it, shrinking the original buffer's capacity to `at`
(the returned buffer taking the rest). -/
theorem C9_capacity_frame (s : SliceString) (n c : Nat) (bs : List Nat) :
    ((s.clear).capacity = s.capacity) ∧
    (∀ s2, s.truncate n = some s2 → s2.capacity = s.capacity) ∧
    ((s.pop).2.capacity = s.capacity) ∧
    (∀ s2, s.push c = some s2 → s2.capacity = s.capacity) ∧
    (∀ s2, s.push_str bs = some s2 → s2.capacity = s.capacity) ∧
    ((s.write_str bs).2.capacity = s.capacity) ∧
    ((s.write_char c).2.capacity = s.capacity) ∧
    (∀ r t, s.split_off n = some (r, t) →
      r.capacity = n ∧ t.capacity = s.capacity - n
        ∧ r.capacity + t.capacity = s.capacity) := by
  refine ⟨rfl, ?_, ?_, ?_, ?_, ?_, ?_, ?_⟩
  · intro s2 h
    unfold SliceString.truncate at h
    by_cases hle : n ≤ s.len
    · rw [if_pos hle] at h
      by_cases hb : s.is_char_boundary n
      · rw [if_pos hb] at h
        obtain rfl := Option.some.inj h
        rfl
      · rw [if_neg hb] at h
        exact Option.noConfusion h
    · rw [if_neg hle] at h
      obtain rfl := Option.some.inj h
      rfl
  · unfold SliceString.pop
    cases hm : (utf8Decode s.content).bind List.getLast? with
    | none => rfl
    | some c2 => rfl
  · intro s2 h
    exact (SliceString.push_some s c s2 h).2.2.1
  · intro s2 h
    exact (SliceString.push_str_some s bs s2 h).2.2.1
  · by_cases hcgt : s.capacity < s.len + bs.length
    · rw [(SliceString.write_str_spec s bs).2 hcgt]
    · obtain ⟨s2, hps, heq⟩ := (SliceString.write_str_spec s bs).1 (by omega)
      rw [heq]
      exact (SliceString.push_str_some s bs s2 hps).2.2.1
  · by_cases hcgt : s.capacity < s.len + utf8Width c
    · rw [(SliceString.write_char_spec s c).2 hcgt]
    · obtain ⟨s2, hps, heq⟩ := (SliceString.write_char_spec s c).1 (by omega)
      rw [heq]
      exact (SliceString.push_some s c s2 hps).2.2.1
  · intro r t h
    obtain ⟨hcap, hbnd, rfl, rfl⟩ := SliceString.split_off_inv s n r t h
    simp only [SliceString.capacity] at hcap
    refine ⟨?_, ?_, ?_⟩
    · show (List.take n s.data).length = n
      rw [List.length_take]
      exact inf_eq_left.mpr hcap
    · show (List.drop n s.data).length = s.data.length - n
      rw [List.length_drop]
    · show (List.take n s.data).length + (List.drop n s.data).length = s.data.length
      rw [← List.length_append, List.take_append_drop]

/-- Witness for C9: on the buffer `fo` of capacity 4, truncate and push
keep capacity 4, while splitting at 1 yields capacities 1 and 3. -/
theorem C9_capacity_frame_witness :
    ((SliceString.clear ⟨[102, 111, 0, 0], 2⟩).capacity = 4)
    ∧ ((⟨[102, 111, 0, 0], 1⟩ : SliceString).capacity = 4)
    ∧ (∀ r t, SliceString.split_off ⟨[102, 111, 0, 0], 2⟩ 1 = some (r, t) →
        r.capacity = 1 ∧ t.capacity = 4 - 1 ∧ r.capacity + t.capacity = 4) :=
  ⟨(C9_capacity_frame ⟨[102, 111, 0, 0], 2⟩ 1 111 []).1,
   (C9_capacity_frame ⟨[102, 111, 0, 0], 2⟩ 1 111 []).2.1 ⟨[102, 111, 0, 0], 1⟩
     (by decide),
   (C9_capacity_frame ⟨[102, 111, 0, 0], 2⟩ 1 111 []).2.2.2.2.2.2.2⟩

/-- Claim C10: the `ufmt` `uWrite::write_str` adapter and the core
`fmt::Write::write_str` are equivalent: both succeed exactly when
`len + text length ≤ capacity`, they produce identical buffer states in all
cases (on failure both leave the buffer unchanged), and they differ only in
the error value (`()` versus `fmt::Error`). -/
theorem C10_ufmt_fmt_write_equiv (s : SliceString) (bs : List Nat) :
    ((s.uwrite_str bs).1.isOk = true ↔ s.len + bs.length ≤ s.capacity) ∧
    ((s.write_str bs).1.isOk = true ↔ s.len + bs.length ≤ s.capacity) ∧
    ((s.uwrite_str bs).1.isOk = (s.write_str bs).1.isOk) ∧
    ((s.uwrite_str bs).2 = (s.write_str bs).2) ∧
    (s.capacity < s.len + bs.length →
      (s.uwrite_str bs).2 = s ∧ (s.write_str bs).2 = s) := by
  by_cases hcgt : s.capacity < s.len + bs.length
  · rw [(uwrite_str_spec s bs).2 hcgt, (SliceString.write_str_spec s bs).2 hcgt]
    refine ⟨?_, ?_, rfl, rfl, fun _ => ⟨rfl, rfl⟩⟩
    · simp [Except.isOk, Except.toBool]
      omega
    · simp [Except.isOk, Except.toBool]
      omega
  · obtain ⟨s2, hps, heq⟩ := (uwrite_str_spec s bs).1 (by omega)
    obtain ⟨s3, hps2, heq2⟩ := (SliceString.write_str_spec s bs).1 (by omega)
    obtain rfl : s2 = s3 := by rw [hps] at hps2; exact Option.some.inj hps2
    rw [heq, heq2]
    refine ⟨?_, ?_, rfl, rfl, fun hx => absurd hx hcgt⟩
    · simp [Except.isOk, Except.toBool]
      omega
    · simp [Except.isOk, Except.toBool]
      omega

/-- Witness for C10: writing `oo` into the nearly-full buffer `fo` of
capacity 3 fails in both adapters and leaves the buffer unchanged. -/
theorem C10_ufmt_fmt_write_equiv_witness :
    ((SliceString.uwrite_str ⟨[102, 111, 0], 2⟩ [111, 111]).1.isOk = true
      ↔ 2 + 2 ≤ 3)
    ∧ ((SliceString.uwrite_str ⟨[102, 111, 0], 2⟩ [111, 111]).2
        = (SliceString.write_str ⟨[102, 111, 0], 2⟩ [111, 111]).2)
    ∧ (3 < 2 + 2 →
        (SliceString.uwrite_str ⟨[102, 111, 0], 2⟩ [111, 111]).2 = ⟨[102, 111, 0], 2⟩
        ∧ (SliceString.write_str ⟨[102, 111, 0], 2⟩ [111, 111]).2 = ⟨[102, 111, 0], 2⟩) :=
  ⟨(C10_ufmt_fmt_write_equiv ⟨[102, 111, 0], 2⟩ [111, 111]).1,
   (C10_ufmt_fmt_write_equiv ⟨[102, 111, 0], 2⟩ [111, 111]).2.2.2.1,
   (C10_ufmt_fmt_write_equiv ⟨[102, 111, 0], 2⟩ [111, 111]).2.2.2.2⟩

theorem listCompare_cons_lt {a b : Nat} (h : a < b) (x y : List Nat) :
    listCompare (a :: x) (b :: y) = Ordering.lt := by
  rw [listCompare, if_pos h]

theorem listCompare_cons_same (a : Nat) (x y : List Nat) :
    listCompare (a :: x) (a :: y) = listCompare x y := by
  rw [listCompare, if_neg (by omega), if_neg (by omega)]

theorem listCompare_encode_lt (c1 c2 : Nat) (h1 : ScalarValue c1) (h2 : ScalarValue c2)
    (hlt : c1 < c2) (r1 r2 : List Nat) :
    listCompare (utf8EncodeScalar c1 ++ r1) (utf8EncodeScalar c2 ++ r2) = Ordering.lt := by
  obtain ⟨ha1, ha2⟩ := h1
  obtain ⟨hb1, hb2⟩ := h2
  by_cases p1 : c1 < 0x80
  · rw [utf8EncodeScalar, if_pos p1]
    by_cases q1 : c2 < 0x80
    · rw [utf8EncodeScalar, if_pos q1]
      exact listCompare_cons_lt hlt _ _
    · by_cases q2 : c2 < 0x800
      · rw [utf8EncodeScalar, if_neg q1, if_pos q2]
        exact listCompare_cons_lt (by omega) _ _
      · by_cases q3 : c2 < 0x10000
        · rw [utf8EncodeScalar, if_neg q1, if_neg q2, if_pos q3]
          exact listCompare_cons_lt (by omega) _ _
        · rw [utf8EncodeScalar, if_neg q1, if_neg q2, if_neg q3]
          exact listCompare_cons_lt (by omega) _ _
  · by_cases p2 : c1 < 0x800
    · rw [utf8EncodeScalar, if_neg p1, if_pos p2]
      by_cases q2 : c2 < 0x800
      · -- both 2-byte
        rw [utf8EncodeScalar, if_neg (by omega), if_pos q2]
        simp only [List.cons_append, List.nil_append]
        rcases Nat.lt_trichotomy (c1 / 64) (c2 / 64) with hq | hq | hq
        · exact listCompare_cons_lt (by omega) _ _
        · have e : 0xC0 + c1 / 64 = 0xC0 + c2 / 64 := by omega
          rw [e, listCompare_cons_same]
          exact listCompare_cons_lt (by omega) _ _
        · omega
      · by_cases q3 : c2 < 0x10000
        · rw [utf8EncodeScalar, if_neg (by omega), if_neg q2, if_pos q3]
          exact listCompare_cons_lt (by omega) _ _
        · rw [utf8EncodeScalar, if_neg (by omega), if_neg q2, if_neg q3]
          exact listCompare_cons_lt (by omega) _ _
    · by_cases p3 : c1 < 0x10000
      · rw [utf8EncodeScalar, if_neg p1, if_neg p2, if_pos p3]
        by_cases q3 : c2 < 0x10000
        · -- both 3-byte
          rw [utf8EncodeScalar, if_neg (by omega), if_neg (by omega), if_pos q3]
          simp only [List.cons_append, List.nil_append]
          rcases Nat.lt_trichotomy (c1 / 4096) (c2 / 4096) with hq | hq | hq
          · exact listCompare_cons_lt (by omega) _ _
          · have e : 0xE0 + c1 / 4096 = 0xE0 + c2 / 4096 := by omega
            rw [e, listCompare_cons_same]
            rcases Nat.lt_trichotomy (c1 / 64 % 64) (c2 / 64 % 64) with hm | hm | hm
            · exact listCompare_cons_lt (by omega) _ _
            · have e2 : 0x80 + c1 / 64 % 64 = 0x80 + c2 / 64 % 64 := by omega
              rw [e2, listCompare_cons_same]
              exact listCompare_cons_lt (by omega) _ _
            · omega
          · omega
        · rw [utf8EncodeScalar, if_neg (by omega), if_neg (by omega), if_neg q3]
          exact listCompare_cons_lt (by omega) _ _
      · -- both 4-byte
        rw [utf8EncodeScalar, if_neg p1, if_neg p2, if_neg p3]
        rw [utf8EncodeScalar, if_neg (by omega), if_neg (by omega), if_neg (by omega)]
        simp only [List.cons_append, List.nil_append]
        rcases Nat.lt_trichotomy (c1 / 262144) (c2 / 262144) with hq | hq | hq
        · exact listCompare_cons_lt (by omega) _ _
        · have e : 0xF0 + c1 / 262144 = 0xF0 + c2 / 262144 := by omega
          rw [e, listCompare_cons_same]
          rcases Nat.lt_trichotomy (c1 / 4096 % 64) (c2 / 4096 % 64) with hm | hm | hm
          · exact listCompare_cons_lt (by omega) _ _
          · have e2 : 0x80 + c1 / 4096 % 64 = 0x80 + c2 / 4096 % 64 := by omega
            rw [e2, listCompare_cons_same]
            rcases Nat.lt_trichotomy (c1 / 64 % 64) (c2 / 64 % 64) with hk | hk | hk
            · exact listCompare_cons_lt (by omega) _ _
            · have e3 : 0x80 + c1 / 64 % 64 = 0x80 + c2 / 64 % 64 := by omega
              rw [e3, listCompare_cons_same]
              exact listCompare_cons_lt (by omega) _ _
            · omega
          · omega
        · omega

theorem listCompare_swap (a : List Nat) : ∀ b : List Nat,
    listCompare a b = (listCompare b a).swap := by
  induction a with
  | nil =>
    intro b
    cases b with
    | nil => rfl
    | cons y ys => rfl
  | cons x xs ih =>
    intro b
    cases b with
    | nil => rfl
    | cons y ys =>
      rcases Nat.lt_trichotomy x y with h | h | h
      · rw [listCompare_cons_lt h, listCompare, if_neg (by omega), if_pos h]
        rfl
      · subst h
        rw [listCompare_cons_same, listCompare_cons_same, ih ys]
      · rw [listCompare_cons_lt h, listCompare, if_neg (by omega), if_pos h]
        rfl

theorem listCompare_encode_gt (c1 c2 : Nat) (h1 : ScalarValue c1) (h2 : ScalarValue c2)
    (hgt : c2 < c1) (r1 r2 : List Nat) :
    listCompare (utf8EncodeScalar c1 ++ r1) (utf8EncodeScalar c2 ++ r2) = Ordering.gt := by
  rw [listCompare_swap, listCompare_encode_lt c2 c1 h2 h1 hgt r2 r1]
  rfl

theorem listCompare_append_left (p : List Nat) : ∀ x y : List Nat,
    listCompare (p ++ x) (p ++ y) = listCompare x y := by
  induction p with
  | nil => intro x y; rfl
  | cons a t ih =>
    intro x y
    rw [List.cons_append, List.cons_append, listCompare_cons_same, ih]

theorem encode_ne_nil (c : Nat) : utf8EncodeScalar c ≠ [] := by
  unfold utf8EncodeScalar
  split_ifs <;> simp

theorem listCompare_flatten_scalars (cs1 : List Nat) (h1 : ∀ c ∈ cs1, ScalarValue c) :
    ∀ cs2 : List Nat, (∀ c ∈ cs2, ScalarValue c) →
    listCompare ((cs1.map utf8EncodeScalar).flatten) ((cs2.map utf8EncodeScalar).flatten)
      = listCompare cs1 cs2 := by
  induction cs1 with
  | nil =>
    intro cs2 h2
    cases cs2 with
    | nil => rfl
    | cons c t =>
      obtain ⟨b, bt, hbt⟩ := List.exists_cons_of_ne_nil (encode_ne_nil c)
      simp only [List.map_cons, List.flatten_cons, List.map_nil, List.flatten_nil]
      rw [hbt, List.cons_append]
      rfl
  | cons c1 t1 ih =>
    intro cs2 h2
    cases cs2 with
    | nil =>
      obtain ⟨b, bt, hbt⟩ := List.exists_cons_of_ne_nil (encode_ne_nil c1)
      simp only [List.map_cons, List.flatten_cons, List.map_nil, List.flatten_nil]
      rw [hbt, List.cons_append]
      rfl
    | cons c2 t2 =>
      simp only [List.map_cons, List.flatten_cons]
      rcases Nat.lt_trichotomy c1 c2 with h | h | h
      · rw [listCompare_encode_lt c1 c2 (h1 c1 (by simp)) (h2 c2 (by simp)) h,
          listCompare_cons_lt h]
      · subst h
        rw [listCompare_append_left, listCompare_cons_same]
        exact ih (fun x hx => h1 x (by simp [hx])) t2 (fun x hx => h2 x (by simp [hx]))
      · rw [listCompare_encode_gt c1 c2 (h1 c1 (by simp)) (h2 c2 (by simp)) h,
          listCompare, if_neg (by omega), if_pos h]

/-- Decoding is injective on valid byte lists: two valid byte lists are
equal iff their decoded scalar sequences are. -/
theorem utf8Decode_inj (x y cs1 cs2 : List Nat) (hx : utf8Decode x = some cs1)
    (hy : utf8Decode y = some cs2) : x = y ↔ cs1 = cs2 := by
  constructor
  · rintro rfl
    rw [hx] at hy
    exact Option.some.inj hy
  · rintro rfl
    obtain ⟨e1, -⟩ := utf8Decode_inversion cs1 x hx
    obtain ⟨e2, -⟩ := utf8Decode_inversion cs1 y hy
    rw [e1, e2]

/-- Claim C8: buffer-to-buffer equality (and both buffer/native-text
directions) coincides with equality of the decoded scalar sequences,
ordering coincides with the standard lexicographic comparison of the
decoded text, and hashing is consistent with equality: two buffers with
equal content hash identically under every hasher. -/
theorem C8_comparison_lexicographic (a b : SliceString) (t csa csb cst : List Nat)
    (ha : utf8Decode a.content = some csa) (hb : utf8Decode b.content = some csb)
    (ht : utf8Decode t = some cst) :
    (SliceString.beq a b = true ↔ csa = csb) ∧
    (SliceString.cmp a b = listCompare csa csb) ∧
    (SliceString.beqStr a t = true ↔ csa = cst) ∧
    (SliceString.strBeq t a = true ↔ cst = csa) ∧
    (SliceString.beqStr a t = SliceString.strBeq t a) ∧
    (∀ h : List Nat → Nat, SliceString.beq a b = true →
      SliceString.hashWith h a = SliceString.hashWith h b) := by
  obtain ⟨ea, halla⟩ := utf8Decode_inversion csa a.content ha
  obtain ⟨eb, hallb⟩ := utf8Decode_inversion csb b.content hb
  refine ⟨?_, ?_, ?_, ?_, ?_, ?_⟩
  · unfold SliceString.beq
    rw [decide_eq_true_eq]
    exact utf8Decode_inj _ _ _ _ ha hb
  · unfold SliceString.cmp
    rw [ea, eb]
    exact listCompare_flatten_scalars csa halla csb hallb
  · unfold SliceString.beqStr
    rw [decide_eq_true_eq]
    exact utf8Decode_inj _ _ _ _ ha ht
  · unfold SliceString.strBeq
    rw [decide_eq_true_eq]
    exact utf8Decode_inj _ _ _ _ ht ha
  · unfold SliceString.beqStr SliceString.strBeq
    exact decide_eq_decide.mpr ⟨fun h => h.symm, fun h => h.symm⟩
  · intro h hbeq
    unfold SliceString.hashWith
    unfold SliceString.beq at hbeq
    rw [decide_eq_true_eq] at hbeq
    rw [hbeq]

/-- Witness for C8: the buffers `abcd` and `zzzz` (from the crate's `cmp`
test) compare as their decoded texts do — strictly less — are unequal, and
`abcd` equals the native text `abcd` in both directions. -/
theorem C8_comparison_lexicographic_witness :
    (SliceString.beq ⟨[97, 98, 99, 100], 4⟩ ⟨[122, 122, 122, 122], 4⟩ = true
      ↔ [97, 98, 99, 100] = [122, 122, 122, 122])
    ∧ (SliceString.cmp ⟨[97, 98, 99, 100], 4⟩ ⟨[122, 122, 122, 122], 4⟩
        = listCompare [97, 98, 99, 100] [122, 122, 122, 122])
    ∧ (SliceString.beqStr ⟨[97, 98, 99, 100], 4⟩ [97, 98, 99, 100] = true
      ↔ [97, 98, 99, 100] = ([97, 98, 99, 100] : List Nat))
    ∧ SliceString.cmp ⟨[97, 98, 99, 100], 4⟩ ⟨[122, 122, 122, 122], 4⟩ = Ordering.lt
    ∧ SliceString.beqStr ⟨[97, 98, 99, 100], 4⟩ [97, 98, 99, 100]
        = SliceString.strBeq [97, 98, 99, 100] ⟨[97, 98, 99, 100], 4⟩ :=
  ⟨(C8_comparison_lexicographic ⟨[97, 98, 99, 100], 4⟩ ⟨[122, 122, 122, 122], 4⟩
      [97, 98, 99, 100] [97, 98, 99, 100] [122, 122, 122, 122] [97, 98, 99, 100]
      (by decide) (by decide) (by decide)).1,
   (C8_comparison_lexicographic ⟨[97, 98, 99, 100], 4⟩ ⟨[122, 122, 122, 122], 4⟩
      [97, 98, 99, 100] [97, 98, 99, 100] [122, 122, 122, 122] [97, 98, 99, 100]
      (by decide) (by decide) (by decide)).2.1,
   (C8_comparison_lexicographic ⟨[97, 98, 99, 100], 4⟩ ⟨[122, 122, 122, 122], 4⟩
      [97, 98, 99, 100] [97, 98, 99, 100] [122, 122, 122, 122] [97, 98, 99, 100]
      (by decide) (by decide) (by decide)).2.2.1,
   by decide,
   (C8_comparison_lexicographic ⟨[97, 98, 99, 100], 4⟩ ⟨[122, 122, 122, 122], 4⟩
      [97, 98, 99, 100] [97, 98, 99, 100] [122, 122, 122, 122] [97, 98, 99, 100]
      (by decide) (by decide) (by decide)).2.2.2.2.1⟩

